import Mathlib

/-!
# Verification of the `fiq` filesystem-intelligence tool

Shallow embedding of the core subsystems of the `fiq` repository:
the trigram filename index (`src/index.rs`), the duplicate engine
(`src/commands/duplicates.rs`), the search filters and content matcher
(`src/commands/search.rs`), the index cache fast path
(`src/index_cache.rs`) and the JSON-RPC line loop (`src/mcp/server.rs`).

Strings are modelled as `List Char` (one `Char` per Unicode scalar; the
Rust code works on UTF-8 byte slices, and raw bytes are modelled as
`List Nat` where the byte level is observable, e.g. UTF-8 decoding).
Filesystem reads are modelled as explicit `path → Option bytes`
functions, and wall-clock times as `Nat`.
-/

namespace Fiq

/-! ## Glob matcher (models the external `globset` crate)

The repository delegates glob compilation and matching to the external
`globset` crate.  The model below implements the documented `globset`
semantics for the features the repository can hit on basenames:
literal characters, `*`, `?`, character classes `[abc]` / `[!abc]`
(without ranges), and one level of `{a,b}` alternation.  A pattern the
model cannot represent parses to `none`, standing for a `Glob::new`
error. -/

/-- One compiled simple glob token (no alternation). -/
inductive SToken where
  | lit (c : Char)
  | star
  | qmark
  | cls (neg : Bool) (cs : List Char)
deriving DecidableEq, Repr

/-- Match a simple token sequence against a name, full-anchor semantics
(the whole name must be consumed), as `globset` matches a basename. -/
def smatch (ts : List SToken) (nm : List Char) : Bool :=
  match ts, nm with
  | [], [] => true
  | [], _ :: _ => false
  | .star :: ts, [] => smatch ts []
  | .star :: ts, c :: nm => smatch ts (c :: nm) || smatch (.star :: ts) nm
  | .lit _ :: _, [] => false
  | .lit c :: ts, d :: nm => c == d && smatch ts nm
  | .qmark :: _, [] => false
  | .qmark :: ts, _ :: nm => smatch ts nm
  | .cls _ _ :: _, [] => false
  | .cls neg cs :: ts, d :: nm => (cs.contains d != neg) && smatch ts nm
termination_by (nm.length, ts.length)

/-- Tokenizer output: either a simple token or an alternation group
holding the raw character content of each alternative. -/
inductive TTok where
  | simp (t : SToken)
  | alts (opts : List (List Char))
deriving DecidableEq, Repr

/-- Tokenizer state: outside any group, at the start of a character
class, inside a class body, or inside a brace group. -/
inductive TkMode where
  | normal
  | classStart
  | classBody (neg : Bool) (acc : List Char)
  | braceBody (done : List (List Char)) (cur : List Char)
deriving DecidableEq, Repr

/-- One tokenizer step; `none` models a `globset` compile error. -/
def tkStep (st : List TTok × TkMode) (c : Char) : Option (List TTok × TkMode) :=
  match st.2 with
  | .normal =>
    if c = '*' then some (st.1 ++ [.simp .star], .normal)
    else if c = '?' then some (st.1 ++ [.simp .qmark], .normal)
    else if c = '[' then some (st.1, .classStart)
    else if c = ']' then none
    else if c = '{' then some (st.1, .braceBody [] [])
    else if c = '}' then none
    else some (st.1 ++ [.simp (.lit c)], .normal)
  | .classStart =>
    if c = '!' then some (st.1, .classBody true [])
    else if c = ']' then none
    else if c = '-' then none
    else some (st.1, .classBody false [c])
  | .classBody neg acc =>
    if c = ']' then some (st.1 ++ [.simp (.cls neg acc)], .normal)
    else if c = '-' then none
    else some (st.1, .classBody neg (acc ++ [c]))
  | .braceBody done cur =>
    if c = '}' then some (st.1 ++ [.alts (done ++ [cur])], .normal)
    else if c = ',' then some (st.1, .braceBody (done ++ [cur]) [])
    else if c = '{' ∨ c = '[' ∨ c = ']' then none
    else some (st.1, .braceBody done (cur ++ [c]))

/-- Run the tokenizer over the whole pattern. -/
def tkRun (p : List Char) (st : List TTok × TkMode) : Option (List TTok × TkMode) :=
  match p with
  | [] => some st
  | c :: rest => (tkStep st c).bind (tkRun rest)

/-- Tokenize a glob pattern; fails on malformed class/brace syntax. -/
def tokenizeGlob (p : List Char) : Option (List TTok) :=
  (tkRun p ([], .normal)).bind (fun st =>
    match st.2 with
    | .normal => some st.1
    | _ => none)

/-- Tokens of one brace alternative (`globset` allows `*` and `?`
inside alternates; classes and nested braces were rejected earlier). -/
def altTokens (cs : List Char) : List SToken :=
  cs.map (fun c => if c = '*' then .star else if c = '?' then .qmark else .lit c)

/-- Expand alternation groups into the list of simple-token
alternatives the pattern stands for. -/
def expandToks : List TTok → List (List SToken)
  | [] => [[]]
  | .simp t :: rest => (expandToks rest).map (fun l => t :: l)
  | .alts opts :: rest =>
      (opts.map altTokens).flatMap (fun a => (expandToks rest).map (fun l => a ++ l))

/-- Compile a glob pattern (models `globset::Glob::new` followed by
`compile_matcher`): `none` is a compile error. -/
def parseGlob (p : List Char) : Option (List (List SToken)) :=
  (tokenizeGlob p).map expandToks

/-- Full matcher semantics of a compiled glob. -/
def globAltsMatch (alts : List (List SToken)) (nm : List Char) : Bool :=
  alts.any (fun ts => smatch ts nm)

/-! ## Basenames, lowercasing, trigrams -/

/-- `Path::file_name` on a path string: the component after the last
separator.  (Total model; callers guard the empty result the way the
source guards `file_name() == None`.) -/
def baseName (p : List Char) : List Char :=
  ((p.reverse.takeWhile (fun c => !(c = '/'))).reverse)

/-- `str::to_lowercase`, character-wise. -/
def lowerStr (s : List Char) : List Char := s.map Char.toLower

/-- A trigram: a window of three characters of a lowercased name
(the source uses `[u8; 3]` over UTF-8 bytes). -/
abbrev Trigram := Char × Char × Char

/-- All overlapping windows of width 3 (`slice::windows(3)`). -/
def windows3 : List Char → List Trigram
  | a :: b :: c :: rest => (a, b, c) :: windows3 (b :: c :: rest)
  | _ => []

/-! ## Trigram extraction from a glob (`extract_trigrams_from_glob`) -/

/-- Glob metacharacters the extractor splits on. -/
def isMeta (c : Char) : Bool :=
  c = '*' || c = '?' || c = '[' || c = ']' || c = '{' || c = '}'

/-- `extract_trigrams_from_literal`: append every window of the literal
that is not yet in `seen` (the source's dedup set). -/
def addWindows : List Trigram → List Trigram → List Trigram → List Trigram × List Trigram
  | [], out, seen => (out, seen)
  | t :: rest, out, seen =>
      if t ∈ seen then addWindows rest out seen
      else addWindows rest (out ++ [t]) (t :: seen)

/-- Main loop of `extract_trigrams_from_glob`: accumulate a literal
run, flushing it at each metacharacter. -/
def extractGo : List Char → List Char → List Trigram → List Trigram → List Trigram
  | [], literal, out, seen => (addWindows (windows3 literal) out seen).1
  | c :: rest, literal, out, seen =>
      if isMeta c then
        let os := addWindows (windows3 literal) out seen
        extractGo rest [] os.1 os.2
      else extractGo rest (literal ++ [c]) out seen

/-- `extract_trigrams_from_glob`: lowercase the pattern, split on
metacharacters, emit deduplicated windows of the literal runs. -/
def extract_trigrams_from_glob (pattern : List Char) : List Trigram :=
  extractGo (lowerStr pattern) [] [] []

/-- Sorted posting-list intersection (`intersect_sorted`). -/
def intersect_sorted : List Nat → List Nat → List Nat
  | [], _ => []
  | _ :: _, [] => []
  | a :: as_, b :: bs =>
      if a < b then intersect_sorted as_ (b :: bs)
      else if b < a then intersect_sorted (a :: as_) bs
      else a :: intersect_sorted as_ bs
termination_by a b => a.length + b.length

/-- Insertion step of the model's sort (stands for `sort_unstable`). -/
def insertLe (x : Nat) : List Nat → List Nat
  | [] => [x]
  | y :: ys => if x ≤ y then x :: y :: ys else y :: insertLe x ys

/-- Sort ascending (stands for `Vec::sort_unstable`). -/
def sortNat : List Nat → List Nat
  | [] => []
  | x :: xs => insertLe x (sortNat xs)

/-- Remove consecutive duplicates (`Vec::dedup`). -/
def dedupAdj : List Nat → List Nat
  | [] => []
  | [x] => [x]
  | x :: y :: rest => if x = y then dedupAdj (y :: rest) else x :: dedupAdj (y :: rest)

/-- The packed path buffer: `(start, len)` offsets plus data, with the
per-path length clamped to 65 535 (`u16::MAX`) and the start offset
stored as a `u32` (`path_data.len() as u32` in the source), so it
wraps modulo 2^32. -/
def buildPathsAux : List (List Char) → List (Nat × Nat) → List Char → List (Nat × Nat) × List Char
  | [], offs, data => (offs, data)
  | rel :: rest, offs, data =>
      let len := min rel.length 65535
      buildPathsAux rest (offs ++ [(data.length % 2 ^ 32, len)]) (data ++ rel.take len)

/-- `strip_prefix(root).unwrap_or(path)` on the flat-string path model:
scanned paths are `root ++ "/" ++ rel`. -/
def stripRoot (root p : List Char) : List Char :=
  if (root ++ ['/']).isPrefixOf p then p.drop (root.length + 1) else p

/-- Raw `(trigram, file_id)` postings in emission order: for each file,
every window of the lowercased basename of its (absolute) path.  The
file id is the enumeration index cast to `u32` (`idx as u32` in the
source), so it wraps modulo 2^32. -/
def rawPostings (files : List (List Char)) : List (Trigram × Nat) :=
  files.enum.flatMap (fun ip =>
    (windows3 (lowerStr (baseName ip.2))).map (fun t => (t, ip.1 % 2 ^ 32)))

/-- Group postings by trigram (models the `HashMap` accumulation) and
sort + dedup each list, as `build` does after the walk. -/
def groupPostings (ps : List (Trigram × Nat)) : List (Trigram × List Nat) :=
  ((ps.map Prod.fst).dedup).map (fun k =>
    (k, dedupAdj (sortNat ((ps.filter (fun q => q.1 = k)).map Prod.snd))))

/-- The persistent trigram index (`TrigramIndex` in `src/index.rs`).
The `HashMap` is modelled as an association list with distinct keys. -/
structure TrigramIndex where
  root : List Char
  built_at : Nat
  path_offsets : List (Nat × Nat)
  path_data : List Char
  trigrams : List (Trigram × List Nat)
  total_files : Nat
deriving DecidableEq

/-- `HashMap::get` on the association-list model. -/
def lookupTri (m : List (Trigram × List Nat)) (t : Trigram) : Option (List Nat) :=
  (m.find? (fun q => q.1 = t)).map Prod.snd

/-- The walker in `NamesOnly` mode over an abstract tree given as the
list of relative paths: it emits the root-joined absolute paths
(order is a property of the tree argument; the walker promises none). -/
def scanNamesOnly (root : List Char) (tree : List (List Char)) : List (List Char) :=
  tree.map (fun rel => root ++ '/' :: rel)

/-- `TrigramIndex::build`.  `builtAt` stands for `SystemTime::now()`;
`total_files` is `files.len() as u32`, wrapping modulo 2^32. -/
def TrigramIndex.build (root : List Char) (builtAt : Nat) (tree : List (List Char)) :
    TrigramIndex :=
  let files := scanNamesOnly root tree
  let rels := files.map (stripRoot root)
  let paths := buildPathsAux rels [] []
  { root := root
    built_at := builtAt
    path_offsets := paths.1
    path_data := paths.2
    trigrams := groupPostings (rawPostings files)
    total_files := files.length % 2 ^ 32 }

/-- `TrigramIndex::get_path`: slice the packed buffer. -/
def TrigramIndex.get_path (i : TrigramIndex) (idx : Nat) : Option (List Char) :=
  (i.path_offsets.get? idx).map (fun sl => (i.path_data.drop sl.1).take sl.2)

/-- The candidate loop of `query`: look up each trigram, short-circuit
to no candidates when one is absent, intersect otherwise. -/
def computeCandidates (m : List (Trigram × List Nat)) :
    List Trigram → Option (List Nat) → List Nat
  | [], acc => acc.getD []
  | t :: rest, acc =>
      match lookupTri m t with
      | none => []
      | some posting =>
          computeCandidates m rest
            (some (match acc with
                   | none => posting
                   | some cur => intersect_sorted cur posting))

/-- The verification matcher of `query`: the compiled glob, falling
back to the match-everything glob `*` when compilation fails. -/
def queryMatcher (pattern : List Char) : List Char → Bool :=
  match parseGlob pattern with
  | some alts => fun nm => globAltsMatch alts nm
  | none => fun nm => smatch [.star] nm

/-- `TrigramIndex::query`: `none` when the pattern yields no usable
trigrams (caller falls back to a full scan), otherwise the root-joined
paths of the candidates that survive glob verification. -/
def TrigramIndex.query (i : TrigramIndex) (pattern : List Char) :
    Option (List (List Char)) :=
  let tris := extract_trigrams_from_glob pattern
  if tris.isEmpty then none
  else
    let candidates := computeCandidates i.trigrams tris none
    let matcher := queryMatcher pattern
    some (candidates.filterMap (fun idx =>
      (i.get_path idx).bind (fun rel =>
        let nm := baseName rel
        if nm = [] then none
        else if matcher nm then some (i.root ++ '/' :: rel) else none)))

/-- Encode a list, length first, elements concatenated. -/
def encList (enc : α → List Nat) (xs : List α) : List Nat :=
  xs.length :: (xs.map enc).flatten

/-- Decode one `Nat`. -/
def decNat : List Nat → Option (Nat × List Nat)
  | [] => none
  | n :: rest => some (n, rest)

/-- Decode `n` consecutive elements. -/
def decCount (dec : List Nat → Option (α × List Nat)) :
    Nat → List Nat → Option (List α × List Nat)
  | 0, b => some ([], b)
  | n + 1, b =>
      (dec b).bind (fun xb =>
        (decCount dec n xb.2).map (fun xsb => (xb.1 :: xsb.1, xsb.2)))

/-- Decode a length-prefixed list. -/
def decList (dec : List Nat → Option (α × List Nat)) (b : List Nat) :
    Option (List α × List Nat) :=
  (decNat b).bind (fun nb => decCount dec nb.1 nb.2)

def encChar (c : Char) : List Nat := [c.toNat]

def decChar (b : List Nat) : Option (Char × List Nat) :=
  (decNat b).map (fun nb => (Char.ofNat nb.1, nb.2))

def encPairNat (p : Nat × Nat) : List Nat := [p.1, p.2]

def decPairNat (b : List Nat) : Option ((Nat × Nat) × List Nat) :=
  (decNat b).bind (fun ab => (decNat ab.2).map (fun cb => ((ab.1, cb.1), cb.2)))

def encTri (t : Trigram) : List Nat := [t.1.toNat, t.2.1.toNat, t.2.2.toNat]

def decTri (b : List Nat) : Option (Trigram × List Nat) :=
  (decNat b).bind (fun ab =>
    (decNat ab.2).bind (fun cb =>
      (decNat cb.2).map (fun db =>
        ((Char.ofNat ab.1, Char.ofNat cb.1, Char.ofNat db.1), db.2))))

def encPosting (q : Trigram × List Nat) : List Nat :=
  encTri q.1 ++ encList (fun n => [n]) q.2

def decPosting (b : List Nat) : Option ((Trigram × List Nat) × List Nat) :=
  (decTri b).bind (fun tb =>
    (decList decNat tb.2).map (fun lb => ((tb.1, lb.1), lb.2)))

/-- Serialize the whole index (models `bincode::serialize`). -/
def encodeIndex (i : TrigramIndex) : List Nat :=
  encList encChar i.root ++ [i.built_at] ++
  encList encPairNat i.path_offsets ++ encList encChar i.path_data ++
  encList encPosting i.trigrams ++ [i.total_files]

/-- Deserialize an index (models `bincode::deserialize`). -/
def decodeIndex (b : List Nat) : Option TrigramIndex :=
  (decList decChar b).bind (fun rootb =>
    (decNat rootb.2).bind (fun bab =>
      (decList decPairNat bab.2).bind (fun offb =>
        (decList decChar offb.2).bind (fun datb =>
          (decList decPosting datb.2).bind (fun trib =>
            (decNat trib.2).map (fun tfb =>
              { root := rootb.1
                built_at := bab.1
                path_offsets := offb.1
                path_data := datb.1
                trigrams := trib.1
                total_files := tfb.1 }))))))

/-- The on-disk cache, keyed by file name. -/
def CacheStore := List Char → Option (List Nat)

/-- `TrigramIndex::cache_key`: a deterministic file name derived from
the root path (the 64-bit `DefaultHasher` is modelled by any
deterministic function of the root; save and load apply the same one). -/
def cache_key (root : List Char) : List Char := root ++ ['.', 'i', 'd', 'x']

/-- `TrigramIndex::is_fresh`: root mtime (if readable) at or before
`built_at`. -/
def TrigramIndex.is_fresh (i : TrigramIndex) (mtimeOf : List Char → Option Nat) : Bool :=
  match mtimeOf i.root with
  | some m => m ≤ i.built_at
  | none => false

/-- `TrigramIndex::save_to_cache` (success path): write the serialized
bytes under the cache key. -/
def TrigramIndex.save_to_cache (i : TrigramIndex) (store : CacheStore) : CacheStore :=
  fun k => if k = cache_key i.root then some (encodeIndex i) else store k

/-- `TrigramIndex::load_cached`: read, deserialize, and discard unless
the stored root equals the requested root and the index is fresh. -/
def TrigramIndex.load_cached (root : List Char) (store : CacheStore)
    (mtimeOf : List Char → Option Nat) : Option TrigramIndex :=
  (store (cache_key root)).bind (fun bytes =>
    (decodeIndex bytes).bind (fun i =>
      if i.root = root ∧ i.is_fresh mtimeOf then some i else none))

/-! ## The walker's record type (`src/scanner.rs`) -/

/-- `FileInfo` as emitted by the walker. -/
structure FileInfo where
  path : List Char
  size : Nat
  modified : Option Nat
  isDir : Bool
  extension : Option (List Char)
deriving DecidableEq

/-! ## Duplicate engine (`src/commands/duplicates.rs`)

The `blake3` fingerprint of the external crate is a function argument
(`hash`); the spec treats it as collision-free.  Reads are modelled by
two functions `readF` (full read) and `mmapF` (memory map), each
`none` on I/O or mapping failure. -/

/-- Threshold for memory-mapping files vs reading them directly. -/
def MMAP_THRESHOLD : Nat := 128 * 1024

structure DuplicateGroup where
  hash : List Nat
  size : Nat
  files : List (List Char)
deriving DecidableEq

structure DuplicatesResult where
  total_files_scanned : Nat
  duplicate_groups : List DuplicateGroup
  total_wasted_bytes : Nat
deriving DecidableEq

/-- `hash_file`: constant fingerprint for empty files, mmap at or above
the threshold, full read below; `None` on failure. -/
def hash_file (hash : List Nat → List Nat) (readF mmapF : List Char → Option (List Nat))
    (path : List Char) (size : Nat) : Option (List Nat) :=
  if size = 0 then some (hash [])
  else if MMAP_THRESHOLD ≤ size then (mmapF path).map hash
  else (readF path).map hash

/-- Group a list by a key, keys in first-occurrence order (models the
`HashMap` bucket accumulation; bucket order is irrelevant to the
claims, list order within a bucket is insertion order). -/
def groupByKey [DecidableEq κ] (key : α → κ) (xs : List α) : List (κ × List α) :=
  ((xs.map key).dedup).map (fun k => (k, xs.filter (fun x => key x = k)))

/-- Wasted bytes of a group: `size × (count − 1)`. -/
def groupWaste (g : DuplicateGroup) : Nat := g.size * (g.files.length - 1)

/-- Insertion step for the descending-waste sort (`sort_by` with
`b_waste.cmp(&a_waste)`). -/
def insertWaste (x : DuplicateGroup) : List DuplicateGroup → List DuplicateGroup
  | [] => [x]
  | y :: ys => if groupWaste y ≤ groupWaste x then x :: y :: ys else y :: insertWaste x ys

/-- Sort groups by descending wasted bytes. -/
def sortWasteDesc : List DuplicateGroup → List DuplicateGroup
  | [] => []
  | x :: xs => insertWaste x (sortWasteDesc xs)

/-- `run_duplicates` over the walker's output `files`. -/
def run_duplicates (hash : List Nat → List Nat)
    (readF mmapF : List Char → Option (List Nat))
    (files : List FileInfo) (min_size : Nat) : DuplicatesResult :=
  let total_files_scanned := files.length
  let size_groups := groupByKey (fun f => f.size) (files.filter (fun f => min_size ≤ f.size))
  let candidates := (size_groups.filter (fun g => 1 < g.2.length)).flatMap (fun g => g.2)
  let hashed : List (List Nat × List Char × Nat) :=
    candidates.filterMap (fun f =>
      (hash_file hash readF mmapF f.path f.size).map (fun h => (h, f.path, f.size)))
  let hash_groups := groupByKey (fun e => e.1) hashed
  let duplicate_groups : List DuplicateGroup :=
    ((hash_groups.filter (fun g => 1 < g.2.length)).map (fun g =>
      { hash := g.1
        size := ((g.2.map (fun e => e.2.2)).headD 0)
        files := g.2.map (fun e => e.2.1) }))
  let sorted := sortWasteDesc duplicate_groups
  { total_files_scanned := total_files_scanned
    duplicate_groups := sorted
    total_wasted_bytes := (sorted.map groupWaste).sum }

/-! ## Size parser and search filters (`src/commands/search.rs`) -/

def isAsciiDigit (c : Char) : Bool := '0' ≤ c && c ≤ '9'

def isWs (c : Char) : Bool := c = ' ' || c = '\t' || c = '\n' || c = '\r'

/-- `str::trim`. -/
def trimStr (s : List Char) : List Char :=
  ((s.dropWhile isWs).reverse.dropWhile isWs).reverse

/-- Digits to a number. -/
def digitsToNat (s : List Char) : Nat :=
  s.foldl (fun a c => a * 10 + (c.toNat - 48)) 0

/-- `str::parse::<u64>`: optional leading `+`, then at least one digit
(overflow not modelled). -/
def parse_u64 (s : List Char) : Option Nat :=
  let t := match s with
           | '+' :: rest => rest
           | _ => s
  if t ≠ [] ∧ t.all isAsciiDigit then some (digitsToNat t) else none

/-- `str::parse::<f64>` restricted to plain decimal literals
`[+]digits[.digits]`, returned exactly as a scaled pair
`(mantissa, 10^fracDigits)`.  All values the size parser is specified
on are exactly representable in `f64`, where the exact and the
floating computation agree. -/
def parseDecimal (s : List Char) : Option (Nat × Nat) :=
  let t := match s with
           | '+' :: rest => rest
           | _ => s
  match t.splitOn '.' with
  | [ip] => if ip ≠ [] ∧ ip.all isAsciiDigit then some (digitsToNat ip, 1) else none
  | [ip, fp] =>
      if (ip ≠ [] ∨ fp ≠ []) ∧ ip.all isAsciiDigit ∧ fp.all isAsciiDigit then
        some (digitsToNat (ip ++ fp), 10 ^ fp.length)
      else none
  | _ => none

/-- Does `s` end with `suf`?  (`str::strip_suffix`, positive case.) -/
def stripSufx (suf s : List Char) : Option (List Char) :=
  if suf.isSuffixOf s then some (s.take (s.length - suf.length)) else none

/-- `parse_size`: plain integer, or decimal number with `B`/`KB`/`MB`/
`GB` suffix (powers of 1 000); `none` when unparseable.  The final
`as u64` truncation of the `f64` product is the floor of the exact
product. -/
def parse_size (s : List Char) : Option Nat :=
  let t := (trimStr s).map Char.toUpper
  match parse_u64 t with
  | some n => some n
  | none =>
      let numMult : Option (List Char × Nat) :=
        match stripSufx ['G', 'B'] t with
        | some n => some (n, 1000000000)
        | none =>
            match stripSufx ['M', 'B'] t with
            | some n => some (n, 1000000)
            | none =>
                match stripSufx ['K', 'B'] t with
                | some n => some (n, 1000)
                | none =>
                    match stripSufx ['B'] t with
                    | some n => some (n, 1)
                    | none => none
      numMult.bind (fun nm =>
        (parseDecimal (trimStr nm.1)).map (fun ms => ms.1 * nm.2 / ms.2))

/-- The size-filter stage of `run_search_with_cache`: parse the
user-supplied strings (a failed parse leaves the bound absent) and
keep the files inside the bounds. -/
def applySizeFilter (minS maxS : Option (List Char)) (files : List FileInfo) :
    List FileInfo :=
  let minBytes := minS.bind parse_size
  let maxBytes := maxS.bind parse_size
  files.filter (fun f =>
    (match minBytes with
     | some m => decide (m ≤ f.size)
     | none => true) &&
    (match maxBytes with
     | some m => decide (f.size ≤ m)
     | none => true))

/-! ## UTF-8 decoding (models `std` string conversions)

`String::from_utf8_lossy` and `fs::read_to_string` of the standard
library, over bytes as `List Nat`.  Strict decoding rejects invalid
leads, truncated sequences, overlong forms, surrogates and
out-of-range scalars; lossy decoding replaces an invalid byte with
U+FFFD and continues. -/

def utf8Cont (b : Nat) : Bool := 128 ≤ b && b < 192

/-- Validity of a 2-byte sequence head. -/
def utf8Ok2 (b b1 : Nat) : Bool := 194 ≤ b && b < 224 && utf8Cont b1

/-- Validity of a 3-byte sequence head (excludes overlongs and
surrogates). -/
def utf8Ok3 (b b1 b2 : Nat) : Bool :=
  224 ≤ b && b < 240 && utf8Cont b1 && utf8Cont b2 &&
  (b ≠ 224 || 160 ≤ b1) && (b ≠ 237 || b1 < 160)

/-- Validity of a 4-byte sequence head (excludes overlongs and
scalars beyond U+10FFFF). -/
def utf8Ok4 (b b1 b2 b3 : Nat) : Bool :=
  240 ≤ b && b < 245 && utf8Cont b1 && utf8Cont b2 && utf8Cont b3 &&
  (b ≠ 240 || 144 ≤ b1) && (b ≠ 244 || b1 < 144)

def utf8Val2 (b b1 : Nat) : Nat := (b - 192) * 64 + (b1 - 128)

def utf8Val3 (b b1 b2 : Nat) : Nat := (b - 224) * 4096 + (b1 - 128) * 64 + (b2 - 128)

def utf8Val4 (b b1 b2 b3 : Nat) : Nat :=
  (b - 240) * 262144 + (b1 - 128) * 4096 + (b2 - 128) * 64 + (b3 - 128)

/-- Strict decode (`std::str::from_utf8` / `fs::read_to_string`). -/
def decodeUtf8Strict : List Nat → Option (List Char)
  | [] => some []
  | b :: rest =>
    if b < 128 then (decodeUtf8Strict rest).map (fun cs => Char.ofNat b :: cs)
    else
      match rest with
      | b1 :: rest1 =>
          if utf8Ok2 b b1 then
            (decodeUtf8Strict rest1).map (fun cs => Char.ofNat (utf8Val2 b b1) :: cs)
          else
            match rest1 with
            | b2 :: rest2 =>
                if utf8Ok3 b b1 b2 then
                  (decodeUtf8Strict rest2).map
                    (fun cs => Char.ofNat (utf8Val3 b b1 b2) :: cs)
                else
                  match rest2 with
                  | b3 :: rest3 =>
                      if utf8Ok4 b b1 b2 b3 then
                        (decodeUtf8Strict rest3).map
                          (fun cs => Char.ofNat (utf8Val4 b b1 b2 b3) :: cs)
                      else none
                  | [] => none
            | [] => none
      | [] => none
termination_by bs => bs.length
decreasing_by all_goals simp_arith [List.length]

/-- Lossy decode (`String::from_utf8_lossy`): an invalid head byte
becomes U+FFFD and decoding continues after it. -/
def decodeUtf8Lossy : List Nat → List Char
  | [] => []
  | b :: rest =>
    if b < 128 then Char.ofNat b :: decodeUtf8Lossy rest
    else
      match rest with
      | b1 :: rest1 =>
          if utf8Ok2 b b1 then Char.ofNat (utf8Val2 b b1) :: decodeUtf8Lossy rest1
          else
            match rest1 with
            | b2 :: rest2 =>
                if utf8Ok3 b b1 b2 then
                  Char.ofNat (utf8Val3 b b1 b2) :: decodeUtf8Lossy rest2
                else
                  match rest2 with
                  | b3 :: rest3 =>
                      if utf8Ok4 b b1 b2 b3 then
                        Char.ofNat (utf8Val4 b b1 b2 b3) :: decodeUtf8Lossy rest3
                      else Char.ofNat 0xFFFD :: decodeUtf8Lossy (b1 :: b2 :: b3 :: rest3)
                  | [] => Char.ofNat 0xFFFD :: decodeUtf8Lossy (b1 :: b2 :: [])
            | [] => Char.ofNat 0xFFFD :: decodeUtf8Lossy (b1 :: [])
      | [] => Char.ofNat 0xFFFD :: decodeUtf8Lossy []
termination_by bs => bs.length
decreasing_by all_goals simp_arith [List.length]

/-! ## Content matching (`search_content` in `src/commands/search.rs`) -/

structure ContentMatch where
  line_number : Nat
  line : List Char
deriving DecidableEq

structure SearchMatch where
  path : List Char
  size : Nat
  content_matches : Option (List ContentMatch)
deriving DecidableEq

structure SearchResult where
  «matches» : List SearchMatch
  total_matches : Nat
  files_scanned : Nat
deriving DecidableEq

/-- `str::lines`: split on `'\n'`, drop a final empty piece (no
trailing empty line), strip one trailing `'\r'` from each line. -/
def linesRust (s : List Char) : List (List Char) :=
  let parts := s.splitOn '\n'
  let parts := if parts.getLast? = some [] then parts.dropLast else parts
  parts.map (fun l => if l.getLast? = some '\r' then l.dropLast else l)

/-- Does `hay` start with `needle`? -/
def startsWithSeg : List Char → List Char → Bool
  | [], _ => true
  | _ :: _, [] => false
  | n :: ns, h :: hs => n == h && startsWithSeg ns hs

/-- `str::contains` with a string pattern: contiguous substring. -/
def containsSeg (needle : List Char) : List Char → Bool
  | [] => startsWithSeg needle []
  | c :: hs => startsWithSeg needle (c :: hs) || containsSeg needle hs

/-- UTF-8 byte length of a string (`str::len`). -/
def byteLen (s : List Char) : Nat := (s.map Char.utf8Size).sum

/-- `str::floor_char_boundary`-based slice: the longest prefix of
whole characters whose byte length is at most `limit`. -/
def takeBytesLimit (limit : Nat) : List Char → List Char
  | [] => []
  | c :: rest =>
      if c.utf8Size ≤ limit then c :: takeBytesLimit (limit - c.utf8Size) rest else []

/-- The per-line truncation of emitted matches: lines longer than 200
bytes are cut at a character boundary and get a `...` marker. -/
def truncateLine (l : List Char) : List Char :=
  if 200 < byteLen l then takeBytesLimit 200 l ++ ['.', '.', '.'] else l

/-- The match-collection pipeline of `search_content` on decoded text:
enumerate lines, keep the ones whose lowercase form contains the
lowercase query, cap at 10, number from 1 and truncate. -/
def matchLines (content query : List Char) : List ContentMatch :=
  let queryLower := lowerStr query
  ((((linesRust content).enum).filter
      (fun il => containsSeg queryLower (lowerStr il.2))).take 10).map
    (fun il => { line_number := il.1 + 1, line := truncateLine il.2 })

/-- `search_content`: mmap + lossy decode at or above the threshold,
direct `read_to_string` (strict UTF-8) below; `none` when the file
yields no content or no line matches. -/
def search_content (readF mmapF : List Char → Option (List Nat))
    (f : FileInfo) (query : List Char) : Option (List ContentMatch) :=
  let content : Option (List Char) :=
    if MMAP_THRESHOLD ≤ f.size then (mmapF f.path).map decodeUtf8Lossy
    else (readF f.path).bind decodeUtf8Strict
  content.bind (fun c =>
    let ms := matchLines c query
    if ms.isEmpty then none else some ms)

/-- The content matcher as the spec sentence reads: the loaded bytes
are always decoded best-effort ("decodes its bytes best-effort as
text"), in both the mmap and the direct-read branch. -/
def searchContentSpecBestEffort (readF mmapF : List Char → Option (List Nat))
    (f : FileInfo) (query : List Char) : Option (List ContentMatch) :=
  let content : Option (List Char) :=
    if MMAP_THRESHOLD ≤ f.size then (mmapF f.path).map decodeUtf8Lossy
    else (readF f.path).map decodeUtf8Lossy
  content.bind (fun c =>
    let ms := matchLines c query
    if ms.isEmpty then none else some ms)

/-! ## Indexed fast path (`try_indexed_search` in `src/index_cache.rs`)

`get_or_build_index` consults the process cache, the disk cache and
the builder; whichever tier answers, the search runs over one
`TrigramIndex` value, which is the `idx` argument here. -/

/-- `try_indexed_search`: only recursive name-only searches with a
usable pattern are answered from the index; matches report size 0 and
`files_scanned` is the index's total file count. -/
def try_indexed_search (idx : TrigramIndex) (name_pattern : List Char)
    (recursive : Bool) : Option SearchResult :=
  if !recursive then none
  else if (extract_trigrams_from_glob name_pattern).isEmpty then none
  else
    (idx.query name_pattern).map (fun paths =>
      let ms := paths.map (fun p =>
        { path := p, size := 0, content_matches := none : SearchMatch })
      { «matches» := ms
        total_matches := ms.length
        files_scanned := idx.total_files })

/-! ## JSON-RPC server loop (`src/mcp/server.rs`)

The request/response structures live in `src/mcp/protocol.rs`, which
is not among the provided sources; they are modelled from the spec
(§6: "Requests without an `id` are notifications and must not produce
a response", error codes −32700/−32601/−32602).  JSON values are a
standard inductive. -/

/-- Modelled from the spec: a JSON value, for ids, params and results
(protocol.rs is not in the provided sources). -/
inductive JsonValue where
  | null
  | bool (b : Bool)
  | num (n : Int)
  | str (s : List Char)
  | arr (xs : List JsonValue)
  | obj (fields : List (List Char × JsonValue))

/-- Modelled from the spec: a parsed JSON-RPC request; `id = none`
marks a notification (protocol.rs is not in the provided sources). -/
structure JsonRpcRequest where
  method : List Char
  id : Option JsonValue
  params : Option JsonValue

/-- Modelled from the spec: a JSON-RPC response carrying either a
result or an error (protocol.rs is not in the provided sources). -/
structure JsonRpcResponse where
  id : Option JsonValue
  result : Option JsonValue
  error : Option (Int × List Char)

def JsonRpcResponse.success (id : Option JsonValue) (v : JsonValue) : JsonRpcResponse :=
  { id := id, result := some v, error := none }

def JsonRpcResponse.rpcError (id : Option JsonValue) (code : Int) (msg : List Char) :
    JsonRpcResponse :=
  { id := id, result := none, error := some (code, msg) }

/-- Modelled from the spec: deserializing `ToolCallParams { name,
arguments }` out of the params value. -/
def parseToolCallParams (v : JsonValue) : Option (List Char × JsonValue) :=
  match v with
  | .obj fields =>
      match (fields.find? (fun fv : List Char × JsonValue =>
          decide (fv.1 = "name".toList))).map Prod.snd with
      | some (.str name) =>
          some (name,
            ((fields.find? (fun fv : List Char × JsonValue =>
              decide (fv.1 = "arguments".toList))).map Prod.snd).getD .null)
      | _ => none
  | _ => none

/-- The `initialize` result object of `handle_request` (version string
from the build environment left empty). -/
def initializeResult : JsonValue :=
  .obj [("protocolVersion".toList, .str "2024-11-05".toList),
        ("capabilities".toList, .obj [("tools".toList,
            .obj [("listChanged".toList, .bool false)])]),
        ("serverInfo".toList, .obj [("name".toList, .str "fiq".toList),
            ("version".toList, .str [])])]

/-- The `tools/list` result (`tool_definitions` in `src/mcp/tools.rs`),
abridged to the five tool names. -/
def toolDefinitionsValue : JsonValue :=
  .obj [("tools".toList, .arr
    [.obj [("name".toList, .str "scan_stats".toList)],
     .obj [("name".toList, .str "find_duplicates".toList)],
     .obj [("name".toList, .str "search_files".toList)],
     .obj [("name".toList, .str "organize_files".toList)],
     .obj [("name".toList, .str "build_index".toList)]])]

/-- `handle_request`: dispatch on the method, always answering under
the request's id.  `toolCall` stands for `handle_tool_call` in
`src/mcp/handler.rs` (it runs the filesystem commands). -/
def handle_request (toolCall : List Char → JsonValue → Except (List Char) JsonValue)
    (r : JsonRpcRequest) : JsonRpcResponse :=
  if r.method = "initialize".toList then .success r.id initializeResult
  else if r.method = "ping".toList then .success r.id (.obj [])
  else if r.method = "tools/list".toList then .success r.id toolDefinitionsValue
  else if r.method = "tools/call".toList then
    match r.params with
    | none => .rpcError r.id (-32602) "Missing params".toList
    | some p =>
        match parseToolCallParams p with
        | none => .rpcError r.id (-32602) "Invalid params".toList
        | some nameArgs =>
            match toolCall nameArgs.1 nameArgs.2 with
            | .ok v => .success r.id v
            | .error msg => .rpcError r.id (-32602) msg
  else .rpcError r.id (-32601) "Method not found".toList

/-- One line of server input, after framing and JSON parsing: blank
(skipped), malformed JSON (a parse error), or a parsed request. -/
inductive ServerLine where
  | blank
  | malformed
  | request (r : JsonRpcRequest)

/-- The per-line behaviour of `run_mcp_server`: blank lines are
skipped, parse errors are answered with −32700 under a null id, and
requests without an id are notifications producing no output. -/
def processLine (toolCall : List Char → JsonValue → Except (List Char) JsonValue) :
    ServerLine → List JsonRpcResponse
  | .blank => []
  | .malformed => [.rpcError none (-32700) "Parse error".toList]
  | .request r => if r.id.isNone then [] else [handle_request toolCall r]

/-- The server loop: the concatenation of the responses of every
input line, in order. -/
def run_mcp_server (toolCall : List Char → JsonValue → Except (List Char) JsonValue)
    (input : List ServerLine) : List JsonRpcResponse :=
  input.flatMap (processLine toolCall)

/-! ## Proof-side views of the glob pipeline

Used to state and prove the trigram-completeness argument for C1:
the token view of a bracket-free pattern, and the maximal literal
runs of a token sequence. -/

/-- The maximal literal runs of a token sequence, in order; wildcard
tokens separate runs.  Never empty. -/
def tokenRuns : List SToken → List (List Char)
  | [] => [[]]
  | .lit c :: ts =>
      match tokenRuns ts with
      | r :: rs => (c :: r) :: rs
      | [] => [[c]]
  | .star :: ts => [] :: tokenRuns ts
  | .qmark :: ts => [] :: tokenRuns ts
  | .cls _ _ :: ts => [] :: tokenRuns ts

/-- Lowering a token (mirrors lowering the pattern). -/
def tokLower : SToken → SToken
  | .lit c => .lit c.toLower
  | t => t

/-- C8: the size-filter parser maps "1KB" to 1000, "10MB" to
10 000 000, "1.5GB" to 1 500 000 000 and "42" to 42, returns no value
for "garbage", and an unparseable minimum-size string leaves the size
filter inactive rather than raising an error. -/
theorem claim_C8 :
    parse_size "1KB".toList = some 1000 ∧
    parse_size "10MB".toList = some 10000000 ∧
    parse_size "1.5GB".toList = some 1500000000 ∧
    parse_size "42".toList = some 42 ∧
    parse_size "garbage".toList = none ∧
    ∀ (maxS : Option (List Char)) (files : List FileInfo),
      applySizeFilter (some "garbage".toList) maxS files =
        applySizeFilter none maxS files := by
  refine ⟨by decide, by decide, by decide, by decide, by decide, ?_⟩
  intro maxS files
  have h : parse_size ['g', 'a', 'r', 'b', 'a', 'g', 'e'] = none := by decide
  simp [applySizeFilter, h]

/-- C9: the JSON-RPC server never answers a request that lacks an id
(dropping such a line leaves the output stream unchanged), and the
input `[notification, ping(id = 5)]` produces exactly one response,
a success carrying id 5. -/
theorem claim_C9 (toolCall : List Char → JsonValue → Except (List Char) JsonValue) :
    (∀ (pre post : List ServerLine) (r : JsonRpcRequest), r.id = none →
      run_mcp_server toolCall (pre ++ .request r :: post) =
        run_mcp_server toolCall (pre ++ post)) ∧
    run_mcp_server toolCall
        [.request ⟨"notifications/initialized".toList, none, none⟩,
         .request ⟨"ping".toList, some (.num 5), none⟩] =
      [JsonRpcResponse.success (some (.num 5)) (.obj [])] := by
  constructor
  · intro pre post r hid
    simp [run_mcp_server, processLine, hid]
  · simp [run_mcp_server, processLine, handle_request, Option.isNone]

/-- Witness for C9 at a concrete tool handler, notification and
surrounding lines. -/
theorem claim_C9_witness :
    (JsonRpcRequest.id ⟨"notifications/initialized".toList, none, none⟩ = none) ∧
    run_mcp_server (fun _ _ => .ok .null)
        ([ServerLine.blank] ++
          .request ⟨"notifications/initialized".toList, none, none⟩ :: [.blank]) =
      run_mcp_server (fun _ _ => .ok .null) ([ServerLine.blank] ++ [.blank]) :=
  ⟨rfl, (claim_C9 (fun _ _ => .ok .null)).1 [ServerLine.blank] [ServerLine.blank]
    ⟨"notifications/initialized".toList, none, none⟩ rfl⟩

/-- C10: every match of the indexed fast path reports size 0, and
`files_scanned` is the index's `total_files`, not the candidate
count. -/
theorem claim_C10 (idx : TrigramIndex) (pat : List Char) (recursive : Bool)
    (r : SearchResult) (h : try_indexed_search idx pat recursive = some r) :
    (∀ m ∈ r.«matches», m.size = 0) ∧ r.files_scanned = idx.total_files := by
  unfold try_indexed_search at h
  by_cases h1 : (!recursive) = true
  · rw [if_pos h1] at h; cases h
  · rw [if_neg h1] at h
    by_cases h2 : (extract_trigrams_from_glob pat).isEmpty = true
    · rw [if_pos h2] at h; cases h
    · rw [if_neg h2] at h
      cases hq : idx.query pat with
      | none => rw [hq] at h; cases h
      | some paths =>
        rw [hq] at h
        simp only [Option.map_some'] at h
        injection h with h
        subst h
        refine ⟨?_, rfl⟩
        intro m hm
        simp only [List.mem_map] at hm
        obtain ⟨p, _, hp⟩ := hm
        simp [← hp]

/-- Witness for C10: a one-file index queried with `*.rs`. -/
theorem claim_C10_witness :
    (try_indexed_search (TrigramIndex.build "r".toList 0 ["hi.rs".toList])
        "*.rs".toList true =
      some ⟨[⟨"r/hi.rs".toList, 0, none⟩], 1, 1⟩) ∧
    ((∀ m ∈ (⟨[⟨"r/hi.rs".toList, 0, none⟩], 1, 1⟩ : SearchResult).«matches»,
        m.size = 0) ∧
      (⟨[⟨"r/hi.rs".toList, 0, none⟩], 1, 1⟩ : SearchResult).files_scanned =
        (TrigramIndex.build "r".toList 0 ["hi.rs".toList]).total_files) := by
  have he : try_indexed_search (TrigramIndex.build "r".toList 0 ["hi.rs".toList])
      "*.rs".toList true = some ⟨[⟨"r/hi.rs".toList, 0, none⟩], 1, 1⟩ := by
    simp [try_indexed_search, TrigramIndex.build, TrigramIndex.query, queryMatcher,
      extract_trigrams_from_glob, parseGlob, tokenizeGlob, tkRun, tkStep, expandToks,
      globAltsMatch, smatch, computeCandidates, lookupTri, groupPostings, rawPostings,
      scanNamesOnly, stripRoot, baseName, lowerStr, windows3, extractGo, addWindows,
      buildPathsAux, TrigramIndex.get_path, intersect_sorted, sortNat, insertLe,
      dedupAdj, isMeta]
  exact ⟨he, claim_C10 (TrigramIndex.build "r".toList 0 ["hi.rs".toList])
    "*.rs".toList true ⟨[⟨"r/hi.rs".toList, 0, none⟩], 1, 1⟩ he⟩

/-! ### Serialization round trip (for C4) -/

theorem decNat_enc (n : Nat) (rest : List Nat) : decNat (n :: rest) = some (n, rest) := rfl

theorem decCount_enc {α : Type} {enc : α → List Nat}
    {dec : List Nat → Option (α × List Nat)}
    (h : ∀ x rest, dec (enc x ++ rest) = some (x, rest)) :
    ∀ (xs : List α) (rest : List Nat),
      decCount dec xs.length ((xs.map enc).flatten ++ rest) = some (xs, rest) := by
  intro xs
  induction xs with
  | nil => intro rest; rfl
  | cons x xs ih =>
      intro rest
      simp only [List.map_cons, List.flatten_cons, List.length_cons, decCount,
        List.append_assoc, h]
      simp [ih]

theorem decList_enc {α : Type} {enc : α → List Nat}
    {dec : List Nat → Option (α × List Nat)}
    (h : ∀ x rest, dec (enc x ++ rest) = some (x, rest))
    (xs : List α) (rest : List Nat) :
    decList dec (encList enc xs ++ rest) = some (xs, rest) := by
  simp only [encList, decList, List.cons_append, decNat_enc, Option.bind_some]
  exact decCount_enc h xs rest

theorem decChar_enc (c : Char) (rest : List Nat) :
    decChar (encChar c ++ rest) = some (c, rest) := by
  simp [decChar, encChar, decNat, Char.ofNat_toNat]

theorem decPairNat_enc (p : Nat × Nat) (rest : List Nat) :
    decPairNat (encPairNat p ++ rest) = some (p, rest) := by
  simp [decPairNat, encPairNat, decNat]

theorem decTri_enc (t : Trigram) (rest : List Nat) :
    decTri (encTri t ++ rest) = some (t, rest) := by
  simp [decTri, encTri, decNat, Char.ofNat_toNat]

theorem decPosting_enc (q : Trigram × List Nat) (rest : List Nat) :
    decPosting (encPosting q ++ rest) = some (q, rest) := by
  simp only [decPosting, encPosting, List.append_assoc, decTri_enc, Option.bind_some]
  have h := @decList_enc Nat (fun n => [n]) decNat
    (fun x r => by simp [decNat]) q.2 rest
  simp [h]

theorem decodeIndex_encodeIndex (i : TrigramIndex) :
    decodeIndex (encodeIndex i) = some i := by
  have hroot := decList_enc decChar_enc i.root
    (i.built_at :: (encList encPairNat i.path_offsets ++ (encList encChar i.path_data ++
      (encList encPosting i.trigrams ++ [i.total_files]))))
  have hoffs := decList_enc decPairNat_enc i.path_offsets
    (encList encChar i.path_data ++ (encList encPosting i.trigrams ++ [i.total_files]))
  have hdata := decList_enc decChar_enc i.path_data
    (encList encPosting i.trigrams ++ [i.total_files])
  have htris := decList_enc decPosting_enc i.trigrams [i.total_files]
  simp only [decodeIndex, encodeIndex, List.append_assoc, List.singleton_append]
  simp [hroot, hoffs, hdata, htris, decNat]

/-- C4: saving a built index to the disk cache and loading it back for
the same root yields the index unchanged in all its state, provided
the root matches and the index is still fresh at load time. -/
theorem claim_C4 (i : TrigramIndex) (store : CacheStore)
    (mtimeOf : List Char → Option Nat) (root : List Char)
    (hroot : i.root = root) (hfresh : i.is_fresh mtimeOf = true) :
    TrigramIndex.load_cached root (i.save_to_cache store) mtimeOf = some i := by
  subst hroot
  simp [TrigramIndex.load_cached, TrigramIndex.save_to_cache,
    decodeIndex_encodeIndex, hfresh]

/-- Witness for C4: a concrete one-file index, saved and re-loaded. -/
theorem claim_C4_witness :
    ((TrigramIndex.build "r".toList 7 ["hi.rs".toList]).root = "r".toList ∧
      (TrigramIndex.build "r".toList 7 ["hi.rs".toList]).is_fresh
        (fun _ => some 3) = true) ∧
    TrigramIndex.load_cached "r".toList
        ((TrigramIndex.build "r".toList 7 ["hi.rs".toList]).save_to_cache
          (fun _ => none))
        (fun _ => some 3) =
      some (TrigramIndex.build "r".toList 7 ["hi.rs".toList]) :=
  ⟨⟨by decide, by decide⟩,
    claim_C4 (TrigramIndex.build "r".toList 7 ["hi.rs".toList]) (fun _ => none)
      (fun _ => some 3) "r".toList (by decide) (by decide)⟩

/-! ### Duplicate engine lemmas (for C2, C3, C6) -/

/-- What it means for the filesystem to deliver content `c` for file
`f` through whichever channel `hash_file` uses: empty files are not
read at all, large files are memory-mapped, small ones fully read. -/
def readsAs (readF mmapF : List Char → Option (List Nat)) (f : FileInfo)
    (c : List Nat) : Prop :=
  if f.size = 0 then c = []
  else (if MMAP_THRESHOLD ≤ f.size then mmapF f.path else readF f.path) = some c

theorem mem_insertWaste {x y : DuplicateGroup} {l : List DuplicateGroup} :
    x ∈ insertWaste y l ↔ x = y ∨ x ∈ l := by
  induction l with
  | nil => simp [insertWaste]
  | cons z zs ih =>
      simp only [insertWaste]
      split
      · simp
      · simp [ih]; tauto

theorem mem_sortWasteDesc {x : DuplicateGroup} {l : List DuplicateGroup} :
    x ∈ sortWasteDesc l ↔ x ∈ l := by
  induction l with
  | nil => simp [sortWasteDesc]
  | cons z zs ih => simp [sortWasteDesc, mem_insertWaste, ih]

theorem one_lt_length_of_two_mem {α : Type} {a b : α} {l : List α}
    (ha : a ∈ l) (hb : b ∈ l) (hne : a ≠ b) : 1 < l.length := by
  induction l with
  | nil => cases ha
  | cons x xs ih =>
      rcases List.mem_cons.mp ha with rfl | ha2
      · rcases List.mem_cons.mp hb with rfl | hb2
        · exact absurd rfl hne
        · have := List.length_pos_of_mem hb2
          simp only [List.length_cons]
          omega
      · have := List.length_pos_of_mem ha2
        simp only [List.length_cons]
        omega

theorem hash_file_of_readsAs {hash : List Nat → List Nat}
    {readF mmapF : List Char → Option (List Nat)} {f : FileInfo} {c : List Nat}
    (hr : readsAs readF mmapF f c) (hsz : f.size = c.length) :
    hash_file hash readF mmapF f.path f.size = some (hash c) := by
  unfold readsAs at hr
  unfold hash_file
  by_cases h0 : f.size = 0
  · rw [if_pos h0] at hr
    subst hr
    simp [h0]
  · rw [if_neg h0] at hr
    rw [if_neg h0]
    by_cases hT : MMAP_THRESHOLD ≤ f.size
    · rw [if_pos hT] at hr ⊢
      rw [hr]
      rfl
    · rw [if_neg hT] at hr ⊢
      rw [hr]
      rfl

theorem hash_file_inv {hash : List Nat → List Nat}
    {readF mmapF : List Char → Option (List Nat)} {p : List Char} {s : Nat}
    {h : List Nat} (he : hash_file hash readF mmapF p s = some h) :
    ∃ c, h = hash c ∧
      ((s = 0 ∧ c = []) ∨
        (s ≠ 0 ∧ (if MMAP_THRESHOLD ≤ s then mmapF p else readF p) = some c)) := by
  unfold hash_file at he
  by_cases h0 : s = 0
  · rw [if_pos h0] at he
    exact ⟨[], (Option.some_injective _ he).symm, Or.inl ⟨h0, rfl⟩⟩
  · rw [if_neg h0] at he
    by_cases hT : MMAP_THRESHOLD ≤ s
    · rw [if_pos hT] at he
      rcases Option.map_eq_some'.mp he with ⟨c, hc, hh⟩
      exact ⟨c, hh.symm, Or.inr ⟨h0, by rw [if_pos hT]; exact hc⟩⟩
    · rw [if_neg hT] at he
      rcases Option.map_eq_some'.mp he with ⟨c, hc, hh⟩
      exact ⟨c, hh.symm, Or.inr ⟨h0, by rw [if_neg hT]; exact hc⟩⟩

/-- Every path inside an emitted duplicate group is the path of a
scanned file whose fingerprint is the group's hash. -/
theorem mem_dup_group_path {hash : List Nat → List Nat}
    {readF mmapF : List Char → Option (List Nat)} {files : List FileInfo}
    {min_size : Nat} {g : DuplicateGroup} {p : List Char}
    (hg : g ∈ (run_duplicates hash readF mmapF files min_size).duplicate_groups)
    (hp : p ∈ g.files) :
    ∃ f ∈ files, f.path = p ∧
      hash_file hash readF mmapF f.path f.size = some g.hash := by
  unfold run_duplicates at hg
  simp only [mem_sortWasteDesc, List.mem_map, List.mem_filter] at hg
  obtain ⟨G, ⟨hG, _⟩, hgG⟩ := hg
  subst hgG
  simp only at hp
  simp only [List.mem_map] at hp
  obtain ⟨e, heG, hep⟩ := hp
  simp only [groupByKey, List.mem_map, List.mem_dedup] at hG
  obtain ⟨k, _, hGk⟩ := hG
  subst hGk
  simp only at heG hep ⊢
  simp only [List.mem_filter, decide_eq_true_eq] at heG
  obtain ⟨hehashed, hek⟩ := heG
  simp only [List.mem_filterMap] at hehashed
  obtain ⟨f, hfcand, hf⟩ := hehashed
  rcases Option.map_eq_some'.mp hf with ⟨hv, hhv, hhe⟩
  refine ⟨f, ?_, ?_, ?_⟩
  · simp only [List.mem_flatMap, List.mem_filter] at hfcand
    obtain ⟨B, ⟨hB, _⟩, hfB⟩ := hfcand
    simp only [groupByKey, List.mem_map, List.mem_dedup] at hB
    obtain ⟨sz, _, hBsz⟩ := hB
    subst hBsz
    simp only [List.mem_filter] at hfB
    exact hfB.1.1
  · rw [← hep, ← hhe]
  · rw [hhv, ← hek, ← hhe]

/-- C6: the hasher policy.  Zero-length files get the constant
fingerprint of the empty input; files below the 128 KiB threshold are
fully read and hashed; files at or above it are memory-mapped and
hashed; a read or mapping failure yields no fingerprint, and such a
file's path appears in no duplicate group while the run still
completes with a result. -/
theorem claim_C6 (hash : List Nat → List Nat)
    (readF mmapF : List Char → Option (List Nat)) (files : List FileInfo)
    (min_size : Nat) (f : FileInfo)
    (hnodup : (files.map (fun x => x.path)).Nodup) (hf : f ∈ files) :
    (f.size = 0 → hash_file hash readF mmapF f.path f.size = some (hash [])) ∧
    (f.size ≠ 0 → f.size < MMAP_THRESHOLD →
      hash_file hash readF mmapF f.path f.size = (readF f.path).map hash) ∧
    (f.size ≠ 0 → MMAP_THRESHOLD ≤ f.size →
      hash_file hash readF mmapF f.path f.size = (mmapF f.path).map hash) ∧
    (hash_file hash readF mmapF f.path f.size = none →
      ∀ g ∈ (run_duplicates hash readF mmapF files min_size).duplicate_groups,
        f.path ∉ g.files) := by
  refine ⟨?_, ?_, ?_, ?_⟩
  · intro h0
    simp [hash_file, h0]
  · intro h0 hT
    simp [hash_file, h0, Nat.not_le.mpr hT]
  · intro h0 hT
    simp [hash_file, h0, hT]
  · intro hnone g hg hp
    obtain ⟨f2, hf2, hf2p, hf2h⟩ := mem_dup_group_path hg hp
    have : f2 = f := List.inj_on_of_nodup_map hnodup hf2 hf hf2p
    subst this
    rw [hnone] at hf2h
    cases hf2h

/-- Witness for C6: a two-file tree where one file fails to read; its
path is absent from the one duplicate group of the others. -/
theorem claim_C6_witness :
    ((([⟨"a".toList, 2, none, false, none⟩, ⟨"b".toList, 2, none, false, none⟩,
        ⟨"c".toList, 2, none, false, none⟩] : List FileInfo).map
          (fun x => x.path)).Nodup ∧
      (⟨"c".toList, 2, none, false, none⟩ : FileInfo) ∈
        ([⟨"a".toList, 2, none, false, none⟩, ⟨"b".toList, 2, none, false, none⟩,
          ⟨"c".toList, 2, none, false, none⟩] : List FileInfo)) ∧
    (hash_file id (fun p => if p = "c".toList then none else some [7, 7])
        (fun _ => none) "c".toList 2 = none →
      ∀ g ∈ (run_duplicates id
          (fun p => if p = "c".toList then none else some [7, 7]) (fun _ => none)
          [⟨"a".toList, 2, none, false, none⟩, ⟨"b".toList, 2, none, false, none⟩,
            ⟨"c".toList, 2, none, false, none⟩] 1).duplicate_groups,
        "c".toList ∉ g.files) :=
  ⟨⟨by decide, by decide⟩,
    (claim_C6 id (fun p => if p = "c".toList then none else some [7, 7])
      (fun _ => none)
      [⟨"a".toList, 2, none, false, none⟩, ⟨"b".toList, 2, none, false, none⟩,
        ⟨"c".toList, 2, none, false, none⟩] 1 ⟨"c".toList, 2, none, false, none⟩
      (by decide) (by decide)).2.2.2⟩

/-- C2: two distinct readable files with identical byte content, both
at least the configured minimum size, land in the same duplicate
group. -/
theorem claim_C2 (hash : List Nat → List Nat)
    (readF mmapF : List Char → Option (List Nat)) (files : List FileInfo)
    (min_size : Nat) (f1 f2 : FileInfo) (c : List Nat)
    (h1 : f1 ∈ files) (h2 : f2 ∈ files) (hne : f1.path ≠ f2.path)
    (hr1 : readsAs readF mmapF f1 c) (hr2 : readsAs readF mmapF f2 c)
    (hs1 : f1.size = c.length) (hs2 : f2.size = c.length)
    (hmin : min_size ≤ f1.size) :
    ∃ g ∈ (run_duplicates hash readF mmapF files min_size).duplicate_groups,
      f1.path ∈ g.files ∧ f2.path ∈ g.files := by
  have hff : f1 ≠ f2 := fun h => hne (congrArg FileInfo.path h)
  have hsz : f2.size = f1.size := by rw [hs1, hs2]
  have hh1 := @hash_file_of_readsAs hash readF mmapF f1 c hr1 hs1
  have hh2 := @hash_file_of_readsAs hash readF mmapF f2 c hr2 hs2
  -- the size bucket of f1 and f2
  have hmf1 : f1 ∈ files.filter (fun f => decide (min_size ≤ f.size)) :=
    List.mem_filter.mpr ⟨h1, by simp [hmin]⟩
  have hmf2 : f2 ∈ files.filter (fun f => decide (min_size ≤ f.size)) :=
    List.mem_filter.mpr ⟨h2, by simp [hsz ▸ hmin]⟩
  have hb1 : f1 ∈ (files.filter (fun f => decide (min_size ≤ f.size))).filter
      (fun x => decide (x.size = f1.size)) :=
    List.mem_filter.mpr ⟨hmf1, by simp⟩
  have hb2 : f2 ∈ (files.filter (fun f => decide (min_size ≤ f.size))).filter
      (fun x => decide (x.size = f1.size)) :=
    List.mem_filter.mpr ⟨hmf2, by simp [hsz]⟩
  have hblen := one_lt_length_of_two_mem hb1 hb2 hff
  -- f1, f2 are candidates, hence hashed
  have hcand : ∀ f ∈ (files.filter (fun f => decide (min_size ≤ f.size))).filter
      (fun x => decide (x.size = f1.size)),
      f ∈ ((groupByKey (fun f : FileInfo => f.size)
            (files.filter (fun f => decide (min_size ≤ f.size)))).filter
          (fun g => decide (1 < g.2.length))).flatMap (fun g => g.2) := by
    intro f hf
    refine List.mem_flatMap.mpr
      ⟨(f1.size, (files.filter (fun f => decide (min_size ≤ f.size))).filter
          (fun x => decide (x.size = f1.size))), ?_, hf⟩
    refine List.mem_filter.mpr ⟨?_, by simpa using hblen⟩
    simp only [groupByKey, List.mem_map, List.mem_dedup]
    exact ⟨f1.size, ⟨f1, hmf1, rfl⟩, rfl⟩
  -- both hashed entries
  unfold run_duplicates
  simp only [mem_sortWasteDesc]
  set hashed := (((groupByKey (fun f : FileInfo => f.size)
        (files.filter (fun f => decide (min_size ≤ f.size)))).filter
      (fun g => decide (1 < g.2.length))).flatMap (fun g => g.2)).filterMap
    (fun f => (hash_file hash readF mmapF f.path f.size).map
      (fun h => (h, f.path, f.size))) with hhashed
  have he1 : (hash c, f1.path, f1.size) ∈ hashed := by
    rw [hhashed]
    exact List.mem_filterMap.mpr ⟨f1, hcand f1 hb1, by rw [hh1]; rfl⟩
  have he2 : (hash c, f2.path, f2.size) ∈ hashed := by
    rw [hhashed]
    exact List.mem_filterMap.mpr ⟨f2, hcand f2 hb2, by rw [hh2]; rfl⟩
  -- the hash group of both entries
  have hg1 : (hash c, f1.path, f1.size) ∈
      hashed.filter (fun e => decide (e.1 = hash c)) :=
    List.mem_filter.mpr ⟨he1, by simp⟩
  have hg2 : (hash c, f2.path, f2.size) ∈
      hashed.filter (fun e => decide (e.1 = hash c)) :=
    List.mem_filter.mpr ⟨he2, by simp⟩
  have hglen : 1 < (hashed.filter (fun e => decide (e.1 = hash c))).length := by
    refine one_lt_length_of_two_mem hg1 hg2 ?_
    intro h
    exact hne (congrArg (fun q => q.2.1) h)
  refine ⟨{ hash := hash c
            size := (((hashed.filter (fun e => decide (e.1 = hash c))).map
              (fun e => e.2.2)).headD 0)
            files := (hashed.filter (fun e => decide (e.1 = hash c))).map
              (fun e => e.2.1) }, ?_, ?_, ?_⟩
  · refine List.mem_map.mpr
      ⟨(hash c, hashed.filter (fun e => decide (e.1 = hash c))), ?_, rfl⟩
    refine List.mem_filter.mpr ⟨?_, by simpa using hglen⟩
    simp only [groupByKey, List.mem_map, List.mem_dedup]
    exact ⟨hash c, ⟨(hash c, f1.path, f1.size), he1, rfl⟩, rfl⟩
  · exact List.mem_map.mpr ⟨(hash c, f1.path, f1.size), hg1, rfl⟩
  · exact List.mem_map.mpr ⟨(hash c, f2.path, f2.size), hg2, rfl⟩

/-- Witness for C2: files `a` and `b` share their two bytes of
content; the duplicates run puts both paths in one group. -/
theorem claim_C2_witness :
    ((⟨"a".toList, 2, none, false, none⟩ : FileInfo) ∈
        ([⟨"a".toList, 2, none, false, none⟩, ⟨"b".toList, 2, none, false, none⟩,
          ⟨"c".toList, 1, none, false, none⟩] : List FileInfo) ∧
      readsAs (fun p => if p = "c".toList then some [9] else some [7, 7])
        (fun _ => none) ⟨"a".toList, 2, none, false, none⟩ [7, 7]) ∧
    ∃ g ∈ (run_duplicates id
        (fun p => if p = "c".toList then some [9] else some [7, 7]) (fun _ => none)
        [⟨"a".toList, 2, none, false, none⟩, ⟨"b".toList, 2, none, false, none⟩,
          ⟨"c".toList, 1, none, false, none⟩] 1).duplicate_groups,
      "a".toList ∈ g.files ∧ "b".toList ∈ g.files := by
  have hra : readsAs (fun p => if p = "c".toList then some [9] else some [7, 7])
      (fun _ => none) ⟨"a".toList, 2, none, false, none⟩ [7, 7] := by
    simp [readsAs, MMAP_THRESHOLD]
  have hrb : readsAs (fun p => if p = "c".toList then some [9] else some [7, 7])
      (fun _ => none) ⟨"b".toList, 2, none, false, none⟩ [7, 7] := by
    simp [readsAs, MMAP_THRESHOLD]
  exact ⟨⟨by decide, hra⟩,
    claim_C2 id (fun p => if p = "c".toList then some [9] else some [7, 7])
      (fun _ => none)
      [⟨"a".toList, 2, none, false, none⟩, ⟨"b".toList, 2, none, false, none⟩,
        ⟨"c".toList, 1, none, false, none⟩] 1
      ⟨"a".toList, 2, none, false, none⟩ ⟨"b".toList, 2, none, false, none⟩ [7, 7]
      (by decide) (by decide) (by decide) hra hrb rfl rfl (by decide)⟩

/-- C3: with a collision-free fingerprint (the spec treats collision
probability as zero) and stat sizes that agree with the content
lengths actually read, two files of distinct sizes never share a
duplicate group. -/
theorem claim_C3 (hash : List Nat → List Nat)
    (readF mmapF : List Char → Option (List Nat)) (files : List FileInfo)
    (min_size : Nat) (hinj : Function.Injective hash)
    (hnodup : (files.map (fun x => x.path)).Nodup)
    (hcoh : ∀ f ∈ files, ∀ c,
      (if MMAP_THRESHOLD ≤ f.size then mmapF f.path else readF f.path) = some c →
        c.length = f.size)
    (f1 f2 : FileInfo) (h1 : f1 ∈ files) (h2 : f2 ∈ files)
    (hsz : f1.size ≠ f2.size) :
    ∀ g ∈ (run_duplicates hash readF mmapF files min_size).duplicate_groups,
      ¬(f1.path ∈ g.files ∧ f2.path ∈ g.files) := by
  rintro g hg ⟨hp1, hp2⟩
  obtain ⟨fa, hfa, hfap, hfah⟩ := mem_dup_group_path hg hp1
  obtain ⟨fb, hfb, hfbp, hfbh⟩ := mem_dup_group_path hg hp2
  have hea : fa = f1 := List.inj_on_of_nodup_map hnodup hfa h1 hfap
  have heb : fb = f2 := List.inj_on_of_nodup_map hnodup hfb h2 hfbp
  subst hea heb
  obtain ⟨c1, hc1h, hc1⟩ := hash_file_inv hfah
  obtain ⟨c2, hc2h, hc2⟩ := hash_file_inv hfbh
  have hceq : c1 = c2 := hinj (by rw [← hc1h, ← hc2h])
  have hl1 : c1.length = fa.size := by
    rcases hc1 with ⟨h0, hc⟩ | ⟨_, hread⟩
    · rw [hc, h0]; rfl
    · exact hcoh fa h1 c1 hread
  have hl2 : c2.length = fb.size := by
    rcases hc2 with ⟨h0, hc⟩ | ⟨_, hread⟩
    · rw [hc, h0]; rfl
    · exact hcoh fb h2 c2 hread
  rw [hceq] at hl1
  exact hsz (hl1 ▸ hl2)

/-- Witness for C3: distinct-size files `a` (2 bytes) and `c`
(1 byte); no emitted group contains both paths. -/
theorem claim_C3_witness :
    (Function.Injective (id : List Nat → List Nat) ∧
      (⟨"a".toList, 2, none, false, none⟩ : FileInfo).size ≠
        (⟨"c".toList, 1, none, false, none⟩ : FileInfo).size) ∧
    ∀ g ∈ (run_duplicates id
        (fun p => if p = "c".toList then some [9] else some [7, 7]) (fun _ => none)
        [⟨"a".toList, 2, none, false, none⟩, ⟨"b".toList, 2, none, false, none⟩,
          ⟨"c".toList, 1, none, false, none⟩] 1).duplicate_groups,
      ¬("a".toList ∈ g.files ∧ "c".toList ∈ g.files) := by
  have hcoh : ∀ f ∈ ([⟨"a".toList, 2, none, false, none⟩,
      ⟨"b".toList, 2, none, false, none⟩,
      ⟨"c".toList, 1, none, false, none⟩] : List FileInfo), ∀ c : List Nat,
      (if MMAP_THRESHOLD ≤ f.size then (fun _ : List Char => (none : Option (List Nat))) f.path
       else (fun p => if p = "c".toList then some [9] else some [7, 7]) f.path) = some c →
        c.length = f.size := by
    intro f hf c hc
    fin_cases hf <;> simp [MMAP_THRESHOLD] at hc <;> simp [← hc]
  exact ⟨⟨Function.injective_id, by decide⟩,
    claim_C3 id (fun p => if p = "c".toList then some [9] else some [7, 7])
      (fun _ => none)
      [⟨"a".toList, 2, none, false, none⟩, ⟨"b".toList, 2, none, false, none⟩,
        ⟨"c".toList, 1, none, false, none⟩] 1 Function.injective_id (by decide) hcoh
      ⟨"a".toList, 2, none, false, none⟩ ⟨"c".toList, 1, none, false, none⟩
      (by decide) (by decide) (by decide)⟩

/-! ### Content-matcher lemmas (for C7) -/

theorem byteLen_takeBytesLimit (lim : Nat) (l : List Char) :
    byteLen (takeBytesLimit lim l) ≤ lim := by
  induction l generalizing lim with
  | nil => simp [takeBytesLimit, byteLen]
  | cons c rest ih =>
      simp only [takeBytesLimit]
      split
      · have := ih (lim - c.utf8Size)
        simp only [byteLen, List.map_cons, List.sum_cons] at *
        omega
      · simp [byteLen]

theorem takeBytesLimit_isTake (lim : Nat) (l : List Char) :
    takeBytesLimit lim l = l.take (takeBytesLimit lim l).length := by
  induction l generalizing lim with
  | nil => simp [takeBytesLimit]
  | cons c rest ih =>
      simp only [takeBytesLimit]
      split
      · simp only [List.length_cons, List.take_succ_cons, List.cons.injEq, true_and]
        exact ih (lim - c.utf8Size)
      · simp

theorem takeBytesLimit_maximal (lim : Nat) (l : List Char) :
    ∀ j, j ≤ l.length → byteLen (l.take j) ≤ lim →
      j ≤ (takeBytesLimit lim l).length := by
  induction l generalizing lim with
  | nil => intro j hj _; simp only [List.length_nil] at hj; simp [takeBytesLimit, hj]
  | cons c rest ih =>
      intro j hj hb
      cases j with
      | zero => exact Nat.zero_le _
      | succ j =>
          simp only [List.take_succ_cons, byteLen, List.map_cons, List.sum_cons] at hb
          have hc : c.utf8Size ≤ lim := by omega
          simp only [takeBytesLimit, if_pos hc, List.length_cons]
          have hrec : byteLen (rest.take j) ≤ lim - c.utf8Size := by
            simp only [byteLen]; omega
          have := ih (lim - c.utf8Size) j (by simpa using Nat.succ_le_succ_iff.mp hj) hrec
          omega

theorem truncateLine_short {l : List Char} (h : byteLen l ≤ 200) :
    truncateLine l = l := by
  unfold truncateLine
  rw [if_neg (by omega)]

theorem truncateLine_long {l : List Char} (h : 200 < byteLen l) :
    truncateLine l = l.take (takeBytesLimit 200 l).length ++ ['.', '.', '.'] ∧
    byteLen (l.take (takeBytesLimit 200 l).length) ≤ 200 ∧
    ∀ j, j ≤ l.length → byteLen (l.take j) ≤ 200 →
      j ≤ (takeBytesLimit 200 l).length := by
  refine ⟨?_, ?_, takeBytesLimit_maximal 200 l⟩
  · unfold truncateLine
    rw [if_pos h, ← takeBytesLimit_isTake]
  · rw [← takeBytesLimit_isTake]
    exact byteLen_takeBytesLimit 200 l

theorem byteLen_truncateLine (l : List Char) : byteLen (truncateLine l) ≤ 203 := by
  by_cases h : 200 < byteLen l
  · rw [(truncateLine_long h).1, ← takeBytesLimit_isTake]
    have := byteLen_takeBytesLimit 200 l
    simp only [byteLen, List.map_append, List.sum_append] at *
    have hdots : (['.', '.', '.'].map Char.utf8Size).sum = 3 := by decide
    omega
  · rw [truncateLine_short (by omega)]
    omega

theorem pairwise_fst_lt_enum {α : Type} (l : List α) :
    List.Pairwise (fun a b : Nat × α => a.1 < b.1) l.enum := by
  have h1 := List.pairwise_lt_range l.length
  rw [← List.enum_map_fst l] at h1
  exact (List.pairwise_map.mp h1)

theorem matchLines_length_le (content query : List Char) :
    (matchLines content query).length ≤ 10 := by
  unfold matchLines
  simp only [List.length_map]
  exact le_trans (List.length_take_le 10 _) (le_refl 10)

theorem matchLines_pairwise (content query : List Char) :
    List.Pairwise (fun a b => a.line_number < b.line_number)
      (matchLines content query) := by
  unfold matchLines
  apply List.pairwise_map.mpr
  have hsub : (((linesRust content).enum.filter
        (fun il => containsSeg (lowerStr query) (lowerStr il.2))).take 10).Sublist
      (linesRust content).enum :=
    (List.take_sublist _ _).trans (List.filter_sublist _)
  exact (List.Pairwise.sublist hsub (pairwise_fst_lt_enum (linesRust content))).imp
    (by intro a b h; simpa using h)

theorem matchLines_mem {content query : List Char} {m : ContentMatch}
    (hm : m ∈ matchLines content query) :
    ∃ line, (linesRust content)[m.line_number - 1]? = some line ∧
      containsSeg (lowerStr query) (lowerStr line) = true ∧
      m.line = truncateLine line := by
  unfold matchLines at hm
  simp only [List.mem_map] at hm
  obtain ⟨il, hil, hmil⟩ := hm
  have hil2 : il ∈ (linesRust content).enum.filter
      (fun il => containsSeg (lowerStr query) (lowerStr il.2)) :=
    (List.take_sublist _ _).mem hil
  rw [List.mem_filter] at hil2
  obtain ⟨hilenum, hilp⟩ := hil2
  obtain ⟨i, line⟩ := il
  obtain ⟨hlt, hline⟩ := List.mem_enum hilenum
  refine ⟨line, ?_, hilp, by rw [← hmil]⟩
  have : m.line_number - 1 = i := by rw [← hmil]; simp
  rw [this, List.getElem?_eq_getElem hlt, hline]

/-- C7 counterexample: a 3-byte file whose bytes are `hi` followed by
the invalid byte 0xFF.  The code's `read_to_string` branch rejects it
and yields no matches, while the claimed unconditional best-effort
decode would match the query `hi` on it. -/
theorem claim_C7_counterexample :
    search_content (fun _ => some [104, 105, 255]) (fun _ => none)
        ⟨"a".toList, 3, none, false, none⟩ "hi".toList = none ∧
    searchContentSpecBestEffort (fun _ => some [104, 105, 255]) (fun _ => none)
        ⟨"a".toList, 3, none, false, none⟩ "hi".toList =
      some [⟨1, ['h', 'i', Char.ofNat 65533]⟩] := by
  have hT : ¬ MMAP_THRESHOLD ≤ (⟨"a".toList, 3, none, false, none⟩ : FileInfo).size := by
    decide
  have hstrict : decodeUtf8Strict [104, 105, 255] = none := by
    simp [decodeUtf8Strict, utf8Ok2, utf8Ok3, utf8Ok4, utf8Cont]
  have hlossy : decodeUtf8Lossy [104, 105, 255] = ['h', 'i', Char.ofNat 65533] := by
    simp only [decodeUtf8Lossy]
    norm_num [utf8Ok2, utf8Ok3, utf8Ok4, utf8Cont]
  constructor
  · unfold search_content
    rw [if_neg hT]
    simp [hstrict]
  · unfold searchContentSpecBestEffort
    rw [if_neg hT]
    simp only [Option.map_some']
    rw [hlossy]
    simp only [Option.some_bind]
    decide

/-- C7 (amended): for a file surviving the filters, content matching
memory-maps and decodes best-effort at or above the 128 KiB threshold
but requires the direct read below the threshold to be valid UTF-8
(an invalid small file yields no matches); every emitted match set has
at most 10 lines, in strictly increasing line-number order, each
emitted line lowercase-contains the lowercased query and is truncated
past 200 bytes at a character boundary with a `...` marker. -/
theorem claim_C7 (readF mmapF : List Char → Option (List Nat)) (f : FileInfo)
    (query : List Char) (ms : List ContentMatch)
    (h : search_content readF mmapF f query = some ms) :
    (∃ content,
      ((MMAP_THRESHOLD ≤ f.size ∧
          ∃ bs, mmapF f.path = some bs ∧ content = decodeUtf8Lossy bs) ∨
        (f.size < MMAP_THRESHOLD ∧
          ∃ bs, readF f.path = some bs ∧ decodeUtf8Strict bs = some content)) ∧
      ∀ m ∈ ms, ∃ line, (linesRust content)[m.line_number - 1]? = some line ∧
        containsSeg (lowerStr query) (lowerStr line) = true ∧
        m.line = truncateLine line) ∧
    ms.length ≤ 10 ∧
    List.Pairwise (fun a b => a.line_number < b.line_number) ms ∧
    (∀ m ∈ ms, byteLen m.line ≤ 203) ∧
    (∀ l : List Char, byteLen l ≤ 200 → truncateLine l = l) ∧
    (∀ l : List Char, 200 < byteLen l →
      truncateLine l = l.take (takeBytesLimit 200 l).length ++ ['.', '.', '.'] ∧
      byteLen (l.take (takeBytesLimit 200 l).length) ≤ 200 ∧
      ∀ j, j ≤ l.length → byteLen (l.take j) ≤ 200 →
        j ≤ (takeBytesLimit 200 l).length) := by
  unfold search_content at h
  have hcontent : ∃ c, (if MMAP_THRESHOLD ≤ f.size
        then (mmapF f.path).map decodeUtf8Lossy
        else (readF f.path).bind decodeUtf8Strict) = some c ∧ ms = matchLines c query := by
    rcases hc : (if MMAP_THRESHOLD ≤ f.size
        then (mmapF f.path).map decodeUtf8Lossy
        else (readF f.path).bind decodeUtf8Strict) with _ | c
    · rw [hc] at h; cases h
    · rw [hc] at h
      simp only [Option.some_bind] at h
      refine ⟨c, rfl, ?_⟩
      by_cases he : (matchLines c query).isEmpty
      · rw [if_pos he] at h; cases h
      · rw [if_neg he] at h; exact (Option.some_injective _ h).symm
  obtain ⟨c, hc, hms⟩ := hcontent
  subst hms
  refine ⟨⟨c, ?_, fun m hm => matchLines_mem hm⟩, matchLines_length_le c query,
    matchLines_pairwise c query, ?_, fun l hl => truncateLine_short hl,
    fun l hl => truncateLine_long hl⟩
  · by_cases hT : MMAP_THRESHOLD ≤ f.size
    · rw [if_pos hT] at hc
      rcases Option.map_eq_some'.mp hc with ⟨bs, hbs, hdec⟩
      exact Or.inl ⟨hT, bs, hbs, hdec.symm⟩
    · rw [if_neg hT] at hc
      rcases Option.bind_eq_some.mp hc with ⟨bs, hbs, hdec⟩
      exact Or.inr ⟨Nat.lt_of_not_le hT, bs, hbs, hdec⟩
  · intro m hm
    obtain ⟨line, _, _, hline⟩ := matchLines_mem hm
    rw [hline]
    exact byteLen_truncateLine line

/-- Witness for C7: a small valid-UTF-8 file with one matching line. -/
theorem claim_C7_witness :
    (search_content (fun _ => some [104, 101, 121, 10, 104, 105, 33]) (fun _ => none)
        ⟨"a".toList, 7, none, false, none⟩ "hi".toList =
      some [⟨2, ['h', 'i', '!']⟩]) ∧
    ((⟨2, ['h', 'i', '!']⟩ : ContentMatch) ∈ [(⟨2, ['h', 'i', '!']⟩ : ContentMatch)] →
      byteLen (⟨2, ['h', 'i', '!']⟩ : ContentMatch).line ≤ 203) := by
  have hstrict : decodeUtf8Strict [104, 101, 121, 10, 104, 105, 33] =
      some ['h', 'e', 'y', '\n', 'h', 'i', '!'] := by
    simp only [decodeUtf8Strict]
    norm_num [utf8Ok2, utf8Ok3, utf8Ok4, utf8Cont]
  have he : search_content (fun _ => some [104, 101, 121, 10, 104, 105, 33])
      (fun _ => none) ⟨"a".toList, 7, none, false, none⟩ "hi".toList =
      some [⟨2, ['h', 'i', '!']⟩] := by
    show (((some [104, 101, 121, 10, 104, 105, 33]).bind decodeUtf8Strict).bind
        (fun c =>
          let ms := matchLines c "hi".toList
          if ms.isEmpty then none else some ms)) = some [⟨2, ['h', 'i', '!']⟩]
    rw [Option.some_bind, hstrict, Option.some_bind]
    decide
  exact ⟨he, fun hm => (claim_C7 (fun _ => some [104, 101, 121, 10, 104, 105, 33])
    (fun _ => none) ⟨"a".toList, 7, none, false, none⟩ "hi".toList
    [⟨2, ['h', 'i', '!']⟩] he).2.2.2.1 _ hm⟩

/-! ### Posting-list lemmas (for C5 and C1) -/

theorem mem_insertLe {x y : Nat} {l : List Nat} :
    x ∈ insertLe y l ↔ x = y ∨ x ∈ l := by
  induction l with
  | nil => simp [insertLe]
  | cons z zs ih =>
      simp only [insertLe]
      split
      · simp
      · simp [ih]; tauto

theorem pairwise_le_insertLe {y : Nat} {l : List Nat}
    (h : List.Pairwise (· ≤ ·) l) : List.Pairwise (· ≤ ·) (insertLe y l) := by
  induction l with
  | nil => simp [insertLe]
  | cons z zs ih =>
      simp only [insertLe]
      rcases List.pairwise_cons.mp h with ⟨hz, hzs⟩
      split
      · refine List.pairwise_cons.mpr ⟨?_, h⟩
        intro a ha
        rcases List.mem_cons.mp ha with rfl | ha2
        · omega
        · exact le_trans (by omega) (hz a ha2)
      · refine List.pairwise_cons.mpr ⟨?_, ih hzs⟩
        intro a ha
        rcases mem_insertLe.mp ha with rfl | ha2
        · omega
        · exact hz a ha2

theorem mem_sortNat {x : Nat} {l : List Nat} : x ∈ sortNat l ↔ x ∈ l := by
  induction l with
  | nil => simp [sortNat]
  | cons z zs ih => simp [sortNat, mem_insertLe, ih]

theorem pairwise_le_sortNat (l : List Nat) : List.Pairwise (· ≤ ·) (sortNat l) := by
  induction l with
  | nil => simp [sortNat]
  | cons z zs ih => exact pairwise_le_insertLe ih

theorem mem_dedupAdj {x : Nat} {l : List Nat} : x ∈ dedupAdj l ↔ x ∈ l := by
  induction l with
  | nil => simp [dedupAdj]
  | cons z zs ih =>
      cases zs with
      | nil => simp [dedupAdj]
      | cons w ws =>
          simp only [dedupAdj]
          split
          · rename_i hzw
            rw [ih]
            subst hzw
            simp
          · simp only [List.mem_cons]
            rw [ih]
            simp

theorem pairwise_lt_dedupAdj {l : List Nat} (h : List.Pairwise (· ≤ ·) l) :
    List.Pairwise (· < ·) (dedupAdj l) := by
  induction l with
  | nil => simp [dedupAdj]
  | cons z zs ih =>
      rcases List.pairwise_cons.mp h with ⟨hz, hzs⟩
      cases zs with
      | nil => simp [dedupAdj]
      | cons w ws =>
          simp only [dedupAdj]
          split
          · exact ih hzs
          · rename_i hzw
            refine List.pairwise_cons.mpr ⟨?_, ih hzs⟩
            intro a ha
            have haz : a ∈ w :: ws := mem_dedupAdj.mp ha
            have hzw2 : z ≤ w := hz w (List.mem_cons_self w ws)
            have hzlt : z < w := lt_of_le_of_ne hzw2 hzw
            rcases List.mem_cons.mp haz with rfl | ha2
            · exact hzlt
            · exact lt_of_lt_of_le hzlt
                ((List.pairwise_cons.mp hzs).1 a ha2)

theorem mem_groupPostings {ps : List (Trigram × Nat)} {t : Trigram} {l : List Nat}
    (h : (t, l) ∈ groupPostings ps) :
    l = dedupAdj (sortNat ((ps.filter (fun q => q.1 = t)).map Prod.snd)) := by
  unfold groupPostings at h
  simp only [List.mem_map] at h
  obtain ⟨k, _, hk⟩ := h
  have ht : k = t := congrArg Prod.fst hk
  subst ht
  have := congrArg Prod.snd hk
  simpa using this.symm

theorem rawPostings_snd_lt {files : List (List Char)} {t : Trigram} {i : Nat}
    (hle : files.length ≤ 2 ^ 32)
    (h : (t, i) ∈ rawPostings files) : i < files.length := by
  unfold rawPostings at h
  simp only [List.mem_flatMap, List.mem_map] at h
  obtain ⟨ip, hip, _, _, hq⟩ := h
  obtain ⟨j, f⟩ := ip
  have hmem := List.mem_enum hip
  have hj : i = j % 2 ^ 32 := by
    have h2 := congrArg Prod.snd hq
    simpa using h2.symm
  have hjm : j % 2 ^ 32 = j := Nat.mod_eq_of_lt (lt_of_lt_of_le hmem.1 hle)
  rw [hj, hjm]
  exact hmem.1

/-- C5: in every built index, each posting list is strictly increasing
and every entry is a valid 32-bit file id strictly below
`total_files`. -/
theorem claim_C5 (root : List Char) (builtAt : Nat) (tree : List (List Char))
    (hsz : tree.length < 2 ^ 32) :
    ∀ tl ∈ (TrigramIndex.build root builtAt tree).trigrams,
      List.Pairwise (· < ·) tl.2 ∧
      ∀ i ∈ tl.2,
        i < (TrigramIndex.build root builtAt tree).total_files ∧ i < 2 ^ 32 := by
  rintro ⟨t, l⟩ hl
  have hchar :
      l = dedupAdj (sortNat (((rawPostings (scanNamesOnly root tree)).filter
        (fun q => q.1 = t)).map Prod.snd)) := by
    apply mem_groupPostings
    simpa [TrigramIndex.build] using hl
  constructor
  · rw [hchar]
    exact pairwise_lt_dedupAdj (pairwise_le_sortNat _)
  · intro i hi
    rw [hchar] at hi
    have hi2 := mem_sortNat.mp (mem_dedupAdj.mp hi)
    simp only [List.mem_map, List.mem_filter] at hi2
    obtain ⟨q, ⟨hq, hqt⟩, hqi⟩ := hi2
    obtain ⟨t2, i2⟩ := q
    have heq : i2 = i := by simpa using hqi
    subst heq
    have hlen : (scanNamesOnly root tree).length = tree.length := by
      simp [scanNamesOnly]
    have hle : (scanNamesOnly root tree).length ≤ 2 ^ 32 := by
      rw [hlen]
      exact le_of_lt hsz
    have hilt := rawPostings_snd_lt hle hq
    have hmodlen : (scanNamesOnly root tree).length % 2 ^ 32 =
        (scanNamesOnly root tree).length := by
      rw [hlen]
      exact Nat.mod_eq_of_lt hsz
    constructor
    · rw [show (TrigramIndex.build root builtAt tree).total_files =
          (scanNamesOnly root tree).length % 2 ^ 32 from rfl]
      rw [hmodlen]
      exact hilt
    · rw [hlen] at hilt
      omega

/-- Witness for C5: the index over a two-file tree. -/
theorem claim_C5_witness :
    (["hello.rs".toList, "hi.rs".toList].length < 2 ^ 32) ∧
    ∀ tl ∈ (TrigramIndex.build "r".toList 0
        ["hello.rs".toList, "hi.rs".toList]).trigrams,
      List.Pairwise (· < ·) tl.2 ∧
      ∀ i ∈ tl.2,
        i < (TrigramIndex.build "r".toList 0
          ["hello.rs".toList, "hi.rs".toList]).total_files ∧ i < 2 ^ 32 :=
  ⟨by norm_num,
    claim_C5 "r".toList 0 ["hello.rs".toList, "hi.rs".toList] (by norm_num)⟩

/-! ### Character and token lemmas (for C1) -/

theorem toNat_ofNat_valid (n : Nat) (h : n.isValidChar) : (Char.ofNat n).toNat = n := by
  unfold Char.ofNat
  rw [dif_pos h]
  rfl

theorem char_toNat_inj {c d : Char} (h : c.toNat = d.toNat) : c = d := by
  have := congrArg Char.ofNat h
  rwa [Char.ofNat_toNat, Char.ofNat_toNat] at this

theorem toLower_eq_iff {c m : Char}
    (hm1 : m.toNat < 65 ∨ 90 < m.toNat) (hm2 : m.toNat < 97 ∨ 122 < m.toNat) :
    (c.toLower = m ↔ c = m) := by
  unfold Char.toLower
  simp only []
  by_cases hr : c.toNat ≥ 65 ∧ c.toNat ≤ 90
  · rw [if_pos hr]
    have hv : (c.toNat + 32).isValidChar := by
      left
      omega
    constructor
    · intro h
      have h2 := congrArg Char.toNat h
      rw [toNat_ofNat_valid _ hv] at h2
      omega
    · intro h
      have h2 := congrArg Char.toNat h
      omega
  · rw [if_neg hr]

theorem isMeta_toLower (c : Char) : isMeta c.toLower = isMeta c := by
  unfold isMeta
  rw [decide_eq_decide.mpr (toLower_eq_iff (c := c) (m := '*') (by decide) (by decide)),
    decide_eq_decide.mpr (toLower_eq_iff (c := c) (m := '?') (by decide) (by decide)),
    decide_eq_decide.mpr (toLower_eq_iff (c := c) (m := '[') (by decide) (by decide)),
    decide_eq_decide.mpr (toLower_eq_iff (c := c) (m := ']') (by decide) (by decide)),
    decide_eq_decide.mpr (toLower_eq_iff (c := c) (m := '{') (by decide) (by decide)),
    decide_eq_decide.mpr (toLower_eq_iff (c := c) (m := '}') (by decide) (by decide))]

theorem tokenRuns_ne_nil (ts : List SToken) : tokenRuns ts ≠ [] := by
  cases ts with
  | nil => simp [tokenRuns]
  | cons t rest =>
      cases t with
      | lit c =>
          simp only [tokenRuns]
          split <;> simp
      | star => simp [tokenRuns]
      | qmark => simp [tokenRuns]
      | cls neg cs => simp [tokenRuns]

theorem tokenRuns_map_tokLower (ts : List SToken) :
    tokenRuns (ts.map tokLower) = (tokenRuns ts).map lowerStr := by
  induction ts with
  | nil => rfl
  | cons t rest ih =>
      cases t with
      | lit c =>
          simp only [List.map_cons, tokLower, tokenRuns, ih]
          rcases h : tokenRuns rest with _ | ⟨r, rs⟩
          · exact absurd h (tokenRuns_ne_nil rest)
          · simp [lowerStr]
      | star => simp [tokLower, tokenRuns, ih, lowerStr]
      | qmark => simp [tokLower, tokenRuns, ih, lowerStr]
      | cls neg cs => simp [tokLower, tokenRuns, ih, lowerStr]

end Fiq
